import Mathlib

/-!
Verification of the archive-indexing and random-access-retrieval core of the
simple-tar-dataset repository (TarDataset / TarImageFolder over uncompressed
tar archives).

The Python implementation files of the core (the tar header scanner, the
archive indexer, the random-access reader, and the dataset filtering layer)
are not present in the source tree available here; only the readme and the
example notebook are.  Following the specification, the core is therefore
modelled here from the spec's own contracts (sections 3, 4, 6 and 7 of the
design document): tar header layout with octal size and checksum fields,
end-of-archive detection by an all-zero block or a short read, cursor
advance by header size plus content rounded up to 512-byte blocks,
last-write-wins name lookup, bounded reads, per-process lazy handles, the
default image-extension filter, and alphabetically sorted class labels.

Bytes are modelled as natural numbers (values below 256); an archive is a
`List Nat`.
-/

/-- Modelled from the spec: member kinds `{RegularFile, Directory, Other}`
(section 3, data model). -/
inductive MemberKind where
  | regularFile : MemberKind
  | directory : MemberKind
  | other : MemberKind
deriving DecidableEq, Repr

/-- Modelled from the spec: one `MemberRecord` per tar archive member, with
normalized name, kind, absolute content offset and content size
(section 3, data model). -/
structure MemberRecord where
  name : String
  kind : MemberKind
  offset : Nat
  size : Nat
deriving DecidableEq, Repr

/-- Modelled from the spec: error taxonomy of the core (section 7).  Only the
conditions relevant to indexing and reading are modelled. -/
inductive ScanError where
  | malformedHeader : ScanError
deriving DecidableEq, Repr

/-- Modelled from the spec: errors of the random-access reader (section 7). -/
inductive ReadError where
  | notReadable : ReadError
deriving DecidableEq, Repr

/-- A run of `n` zero bytes. -/
def zeros (n : Nat) : List Nat := List.replicate n 0

/-- A run of `n` ASCII space bytes (value 32). -/
def spaces (n : Nat) : List Nat := List.replicate n 32

/-- Modelled from the spec: fixed-width octal ASCII encoding used by tar
header numeric fields, most significant digit first (`k` digits). -/
def encodeOctal : Nat → Nat → List Nat
  | 0, _ => []
  | k + 1, n => encodeOctal k (n / 8) ++ [48 + n % 8]

/-- Modelled from the spec: decoding of an octal ASCII digit run; `none` when
a byte is not an octal digit (structure invalid). -/
def decodeOctalDigits (ds : List Nat) : Option Nat :=
  ds.foldl
    (fun acc d => acc.bind fun v =>
      if 48 ≤ d ∧ d ≤ 55 then some (v * 8 + (d - 48)) else none)
    (some 0)

/-- Modelled from the spec: the 100-byte null-padded name field of a tar
header. -/
def encodeName (s : String) : List Nat :=
  s.data.map Char.toNat ++ zeros (100 - s.length)

/-- Modelled from the spec: decoding of the null-terminated name field. -/
def decodeName (bs : List Nat) : String :=
  String.mk ((bs.takeWhile (fun b => b != 0)).map Char.ofNat)

/-- Byte field of a block: `len` bytes starting at `start`. -/
def fieldAt (b : List Nat) (start len : Nat) : List Nat :=
  (b.drop start).take len

/-- Modelled from the spec: the first 148 bytes of a tar header (name, mode,
uid, gid, size, mtime), with the numeric fields other than size left zero. -/
def headerPre (name : String) (size : Nat) : List Nat :=
  encodeName name ++ zeros 24 ++ encodeOctal 11 size ++ [0] ++ zeros 12

/-- Modelled from the spec: bytes 156..511 of a tar header (type flag
followed by fields this model leaves zero). -/
def headerPost (flag : Nat) : List Nat :=
  flag :: zeros 355

/-- Modelled from the spec: tar header checksum — the sum of all 512 header
bytes with the checksum field itself read as eight spaces. -/
def chksumOf (pre post : List Nat) : Nat :=
  (pre ++ spaces 8 ++ post).sum

/-- Modelled from the spec: a 512-byte tar header block whose checksum field
stores the value `ck`; a well-formed header stores the recomputed checksum of
its own bytes, a corrupted one stores a value that does not match. -/
def mkHeaderWithCk (name : String) (size flag ck : Nat) : List Nat :=
  headerPre name size ++ (encodeOctal 6 ck ++ [0, 32]) ++ headerPost flag

/-- Modelled from the spec: one complete well-formed 512-byte tar header
block for a member with the given name, content size, and type flag. -/
def mkHeader (name : String) (size : Nat) (flag : Nat) : List Nat :=
  mkHeaderWithCk name size flag (chksumOf (headerPre name size) (headerPost flag))

/-- Modelled from the spec, Header Scanner (section 4.1): parse one 512-byte
header block into `(name, size, typeflag)`.  Fails with `MalformedHeader`
when the stored checksum does not match the recomputed one or a numeric
field is structurally invalid. -/
def parseHeader (b : List Nat) : Except ScanError (String × Nat × Nat) :=
  if b.length = 512 then
    match decodeOctalDigits (fieldAt b 148 6), decodeOctalDigits (fieldAt b 124 11) with
    | some stored, some size =>
        if stored = (b.take 148 ++ spaces 8 ++ b.drop 156).sum then
          Except.ok (decodeName (b.take 100), size, (b.drop 156).headD 0)
        else Except.error ScanError.malformedHeader
    | _, _ => Except.error ScanError.malformedHeader
  else Except.error ScanError.malformedHeader

/-- Modelled from the spec: number of 512-byte content blocks occupied by a
member of content size `s` (size rounded up to the next 512-byte boundary). -/
def contentBlocks (s : Nat) : Nat := (s + 511) / 512

/-- Modelled from the spec: tar type flag decoding — `'0'` (48) or NUL for a
regular file, `'5'` (53) for a directory, anything else `Other`. -/
def kindOfFlag (f : Nat) : MemberKind :=
  if f = 48 ∨ f = 0 then MemberKind.regularFile
  else if f = 53 then MemberKind.directory
  else MemberKind.other

/-- Modelled from the spec: an all-zero block marks the end of the archive. -/
def isZeroBlock (b : List Nat) : Bool := b.all (fun x => x == 0)

/-- Modelled from the spec, Header Scanner contract (section 4.1): parse a
header block and also report the number of content blocks to skip before the
next header. -/
def headerScan (b : List Nat) : Except ScanError (String × Nat × Nat × Nat) :=
  (parseHeader b).map fun nsf => (nsf.1, nsf.2.1, nsf.2.2, contentBlocks nsf.2.1)

/-- Modelled from the spec (section 3): the member record produced for a
header parsed at absolute archive position `pos`; content begins right after
the 512-byte header; directories carry offset 0 per the data model. -/
def mkScanRecord (name : String) (size : Nat) (flag : Nat) (pos : Nat) : MemberRecord :=
  { name := name
    kind := kindOfFlag flag
    offset := if kindOfFlag flag = MemberKind.directory then 0 else pos + 512
    size := size }

/-- Modelled from the spec, Archive Indexer (section 4.2): scan headers from
byte position `pos`, advancing the cursor by the header size plus the padded
content length each step; stop at an all-zero block or a truncated final
read; abort with `MalformedHeader` on an invalid header or on an archive
truncated inside a member's content.  The fuel argument only bounds
recursion; `scanArchive` supplies enough for any input. -/
def scanGo : Nat → List Nat → Nat → Except ScanError (List MemberRecord)
  | 0, _, _ => Except.ok []
  | fuel + 1, bytes, pos =>
    if bytes.length < 512 then Except.ok []
    else if isZeroBlock (bytes.take 512) then Except.ok []
    else
      match headerScan (bytes.take 512) with
      | Except.error e => Except.error e
      | Except.ok (name, size, flag, nblocks) =>
        if bytes.length < 512 + 512 * nblocks then Except.error ScanError.malformedHeader
        else
          match scanGo fuel (bytes.drop (512 + 512 * nblocks)) (pos + 512 + 512 * nblocks) with
          | Except.error e => Except.error e
          | Except.ok rest => Except.ok (mkScanRecord name size flag pos :: rest)

/-- Modelled from the spec, Archive Indexer (section 4.2): scan the whole
archive once from position 0, producing the ordered member record list. -/
def scanArchive (bytes : List Nat) : Except ScanError (List MemberRecord) :=
  scanGo (bytes.length / 512 + 1) bytes 0

/-- Modelled from the spec (section 6): `open(path, predicate)` — build the
index, keeping the members whose `(name, kind)` satisfy the predicate; the
ordered record list of the filtered index is also its `list` enumeration. -/
def openIndex (bytes : List Nat) (pred : String → MemberKind → Bool) :
    Except ScanError (List MemberRecord) :=
  (scanArchive bytes).map fun rs => rs.filter fun r => pred r.name r.kind

/-- The no-filter predicate: every member is included. -/
def noFilter : String → MemberKind → Bool := fun _ _ => true

/-- Modelled from the spec (section 4.2): name-keyed lookup over the ordered
record list; later records with the same name supersede earlier ones
(last write wins). -/
def lookupName (rs : List MemberRecord) (n : String) : Option MemberRecord :=
  rs.foldl (fun acc r => if r.name = n then some r else acc) none

/-- Modelled from the spec, Random-Access Reader (section 4.3): the raw
content bytes of a record — seek to `record.offset`, yield exactly
`record.size` bytes, never past that boundary. -/
def readBytes (bytes : List Nat) (r : MemberRecord) : List Nat :=
  (bytes.drop r.offset).take r.size

/-- Modelled from the spec (section 4.3): `read(record)` — directories and
`Other`-kind records yield `NotReadable`; regular files yield their bounded
byte range. -/
def readRecord (bytes : List Nat) (r : MemberRecord) : Except ReadError (List Nat) :=
  match r.kind with
  | MemberKind.regularFile => Except.ok (readBytes bytes r)
  | _ => Except.error ReadError.notReadable

/-- Modelled from the spec (section 3): a per-process archive handle is an
open, seekable cursor into the archive file; only its seek position is
observable here. -/
structure FileCursor where
  pos : Nat
deriving DecidableEq, Repr

/-- Modelled from the spec (section 4.3): a read on a handle first seeks to
the record's offset, then consumes the record's byte range, returning the
content together with the handle's new state. -/
def readAt (bytes : List Nat) (h : FileCursor) (r : MemberRecord) :
    List Nat × FileCursor :=
  let seeked : FileCursor := { pos := r.offset }
  ((bytes.drop seeked.pos).take r.size, { pos := seeked.pos + r.size })

/-- Entry used to build a well-formed tar archive: a member name, its tar
type flag, and its content bytes. -/
structure TarEntry where
  name : String
  typeflag : Nat
  content : List Nat
deriving DecidableEq, Repr

/-- A name fits the tar header name field: at most 100 characters, none of
them NUL, all single-byte values. -/
def validNameB (s : String) : Bool :=
  decide (s.length ≤ 100) && s.data.all fun c => c.toNat != 0 && decide (c.toNat < 256)

/-- A serializable entry: its name fits the name field, its size fits the
octal size field, and its flag is a regular file (`'0'`) or a directory
(`'5'`, with no content). -/
def validEntryB (e : TarEntry) : Bool :=
  validNameB e.name && decide (e.content.length < 8 ^ 11) &&
    (e.typeflag == 48 || (e.typeflag == 53 && e.content.isEmpty))

/-- Zero padding after a member's content, up to the next 512-byte boundary. -/
def padLen (n : Nat) : Nat := 512 * contentBlocks n - n

/-- The serialized bytes of one member: header block, content, padding. -/
def mkMember (e : TarEntry) : List Nat :=
  mkHeader e.name e.content.length e.typeflag ++ e.content ++ zeros (padLen e.content.length)

/-- Total serialized length of one member. -/
def memberLen (e : TarEntry) : Nat := 512 + 512 * contentBlocks e.content.length

/-- Concatenated serialized members of an archive. -/
def tarBody : List TarEntry → List Nat
  | [] => []
  | e :: es => mkMember e ++ tarBody es

/-- A well-formed uncompressed tar archive: serialized members followed by
the two all-zero end-of-archive blocks. -/
def buildTar (es : List TarEntry) : List Nat := tarBody es ++ zeros 1024

/-- The member records the indexer is expected to produce for serialized
entries starting at archive position `pos`. -/
def expectedRecords : Nat → List TarEntry → List MemberRecord
  | _, [] => []
  | pos, e :: es =>
    mkScanRecord e.name e.content.length e.typeflag pos ::
      expectedRecords (pos + memberLen e) es

/-- Modelled from the spec and readme: lowercase of a name, character by
character (the Python core lowercases the member name before matching
extensions). -/
def lowerStr (s : String) : String := String.mk (s.data.map Char.toLower)

/-- Modelled from the spec and readme: suffix test on names (`endswith`). -/
def strSuffix (s e : String) : Bool :=
  decide (e.data.length ≤ s.data.length) &&
    (s.data.drop (s.data.length - e.data.length) == e.data)

/-- Modelled from the readme: the default `TarDataset` extension filter
loads all PNG, JPG and JPEG images. -/
def defaultExtensions : List String := [".png", ".jpg", ".jpeg"]

/-- Modelled from the spec and readme: a name matches an extension list when
its lowercase form ends with one of the suffixes. -/
def extMatch (name : String) (exts : List String) : Bool :=
  exts.any fun e => strSuffix (lowerStr name) e

/-- Modelled from the spec (section 6) and readme: the membership filter used
when no `is_valid_file` predicate is supplied — regular files whose name
matches the extension list. -/
def extensionFilter (exts : List String) (r : MemberRecord) : Bool :=
  decide (r.kind = MemberKind.regularFile) && extMatch r.name exts

/-- Modelled from the spec and readme: `TarDataset` construction — index the
archive and keep the names of the members accepted by `is_valid_file` when
given, else by the extension filter (defaulting to the image extensions). -/
def tarDatasetSamples (bytes : List Nat) (exts : Option (List String))
    (isValidFile : Option (MemberRecord → Bool)) : Except ScanError (List String) :=
  (scanArchive bytes).map fun rs =>
    let pred := match isValidFile with
      | some p => p
      | none => extensionFilter (exts.getD defaultExtensions)
    (rs.filter pred).map fun r => r.name

/-- Membership predicate stated the way the default filter is described: a
regular file whose lowercased name ends in `.png`, `.jpg` or `.jpeg`. -/
def isDefaultImage (r : MemberRecord) : Prop :=
  r.kind = MemberKind.regularFile ∧
    (strSuffix (lowerStr r.name) ".png" = true ∨
      strSuffix (lowerStr r.name) ".jpg" = true ∨
      strSuffix (lowerStr r.name) ".jpeg" = true)

instance (r : MemberRecord) : Decidable (isDefaultImage r) := by
  unfold isDefaultImage
  infer_instance

/-- Modelled from the readme and notebook: the top-level folder of a member
name, when the name lies inside a folder. -/
def topFolder (name : String) : Option String :=
  if name.data.contains '/' then
    some (String.mk (name.data.takeWhile fun c => c != '/'))
  else none

/-- Byte-wise lexicographic comparison of names, used to sort class names. -/
def charListLe : List Char → List Char → Bool
  | [], _ => true
  | _ :: _, [] => false
  | a :: as, b :: bs =>
    if a.toNat < b.toNat then true
    else if a.toNat = b.toNat then charListLe as bs
    else false

/-- Lexicographic order on strings as used for sorting class names. -/
def strLe (a b : String) : Bool := charListLe a.data b.data

/-- Modelled from the notebook and readme: `TarImageFolder` derives the class
list as the distinct top-level folder names of the samples, in sorted
(alphabetical) order. -/
def classesOf (samples : List String) : List String :=
  List.insertionSort (fun a b => strLe a b = true) (samples.filterMap topFolder).dedup

/-- Modelled from the notebook: `idx_to_class` — the class name of an integer
label is its position in the sorted class list. -/
def idxToClass (samples : List String) (i : Nat) : Option String :=
  (classesOf samples)[i]?

/-- Modelled from the notebook: `class_to_idx` — the integer label of a class
name is its index in the sorted class list. -/
def classToIdx (samples : List String) (c : String) : Nat :=
  (classesOf samples).indexOf c

/-- Modelled from the spec (sections 3, 4.3): operations a process can perform
against a dataset over one archive. -/
inductive DatasetOp where
  | buildIndex : DatasetOp
  | listMembers : DatasetOp
  | readMember : String → DatasetOp
deriving DecidableEq, Repr

/-- Whether an operation is a read (the only operation that needs a handle). -/
def DatasetOp.isRead : DatasetOp → Bool
  | DatasetOp.readMember _ => true
  | _ => false

/-- Modelled from the spec (sections 3, 5): the per-process handle state — the
identifier of the lazily opened archive handle, if any, and how many handle
opens the process has performed. -/
structure ProcState where
  handle : Option Nat
  opensSoFar : Nat
deriving DecidableEq, Repr

/-- The state of a process that has not touched the archive. -/
def initState : ProcState := { handle := none, opensSoFar := 0 }

/-- Modelled from the spec (section 4.3): index construction and enumeration
leave the handle untouched; a read lazily opens a handle on first use and
reuses the existing one afterwards. -/
def stepOp (s : ProcState) : DatasetOp → ProcState
  | DatasetOp.readMember _ =>
    match s.handle with
    | none => { handle := some s.opensSoFar, opensSoFar := s.opensSoFar + 1 }
    | some _ => s
  | _ => s

/-- Run a sequence of dataset operations from a process state. -/
def runOps (s : ProcState) (ops : List DatasetOp) : ProcState :=
  ops.foldl stepOp s

/-- Four small valid members that precede the corrupted fifth header in the
malformed-archive scenario. -/
def firstFour : List TarEntry :=
  [⟨"f1.png", 48, []⟩, ⟨"f2.png", 48, []⟩, ⟨"f3.png", 48, []⟩, ⟨"f4.png", 48, []⟩]

/-- A corrupted fifth header block: its bytes are those of a header for
`g5.png`, but its checksum field still stores the checksum of the original
`f5.png` header — the result of flipping the first name byte of a valid
header without updating the checksum, so the stored checksum is invalid. -/
def corruptFifthHeader : List Nat :=
  mkHeaderWithCk "g5.png" 0 48 (chksumOf (headerPre "f5.png" 0) (headerPost 48))

/-- An archive of five members whose fifth header block has an invalid
checksum. -/
def corruptedArchive : List Nat :=
  tarBody firstFour ++ (corruptFifthHeader ++ zeros 1024)

/-- Decidable equality for `Except`, used to evaluate concrete results. -/
instance {ε α : Type} [DecidableEq ε] [DecidableEq α] : DecidableEq (Except ε α) :=
  fun x y =>
    match x, y with
    | Except.error a, Except.error b =>
      if h : a = b then isTrue (by rw [h]) else isFalse fun hc => h (Except.error.inj hc)
    | Except.error _, Except.ok _ => isFalse fun hc => Except.noConfusion hc
    | Except.ok _, Except.error _ => isFalse fun hc => Except.noConfusion hc
    | Except.ok a, Except.ok b =>
      if h : a = b then isTrue (by rw [h]) else isFalse fun hc => h (Except.ok.inj hc)

/-- A one-member demonstration archive entry. -/
def demoEntry : TarEntry := ⟨"a.png", 48, [65, 66]⟩

/-- The archive holding just `demoEntry`. -/
def demoArchive : List Nat := buildTar [demoEntry]

/-- The member record the indexer produces for `demoEntry`. -/
def demoRecord : MemberRecord := ⟨"a.png", MemberKind.regularFile, 512, 2⟩

/-- A four-member demonstration archive: a directory, two images (one with an
uppercase extension), and a text file. -/
def demoEntries : List TarEntry :=
  [⟨"red/", 53, []⟩, ⟨"red/a.png", 48, [255]⟩, ⟨"notes.txt", 48, [104, 105]⟩,
    ⟨"green/b.JPG", 48, [0, 255]⟩]

/-- Entries with a duplicated member name; the later `a.png` supersedes the
earlier one. -/
def dupEntries : List TarEntry :=
  [⟨"a.png", 48, [65]⟩, ⟨"b.png", 48, [66]⟩, ⟨"a.png", 48, [67, 68]⟩]

/-! ### Basic length and membership lemmas -/

theorem length_zeros (n : Nat) : (zeros n).length = n := by
  simp [zeros]

theorem length_spaces (n : Nat) : (spaces n).length = n := by
  simp [spaces]

theorem length_encodeOctal (k n : Nat) : (encodeOctal k n).length = k := by
  induction k generalizing n with
  | zero => rfl
  | succ k ih => simp [encodeOctal, ih]

theorem length_encodeName (s : String) (h : s.length ≤ 100) :
    (encodeName s).length = 100 := by
  have hd : s.data.length = s.length := rfl
  simp [encodeName, length_zeros, hd]
  omega

theorem mem_encodeOctal (k n x : Nat) (hx : x ∈ encodeOctal k n) :
    48 ≤ x ∧ x ≤ 55 := by
  induction k generalizing n with
  | zero => simp [encodeOctal] at hx
  | succ k ih =>
    simp only [encodeOctal, List.mem_append, List.mem_singleton] at hx
    rcases hx with hx | hx
    · exact ih _ hx
    · have : n % 8 < 8 := Nat.mod_lt _ (by omega)
      omega

theorem sum_le_of_bytes (l : List Nat) (h : ∀ x ∈ l, x ≤ 255) :
    l.sum ≤ 255 * l.length := by
  induction l with
  | nil => simp
  | cons a as ih =>
    simp only [List.sum_cons, List.length_cons]
    have ha := h a (by simp)
    have := ih fun x hx => h x (by simp [hx])
    omega

/-! ### Octal round trip -/

theorem decodeOctal_general (k n v : Nat) (h : n < 8 ^ k) :
    (encodeOctal k n).foldl
      (fun acc d => acc.bind fun w =>
        if 48 ≤ d ∧ d ≤ 55 then some (w * 8 + (d - 48)) else none)
      (some v) = some (v * 8 ^ k + n) := by
  induction k generalizing n v with
  | zero =>
    simp [encodeOctal] at h ⊢
    omega
  | succ k ih =>
    have hdiv : n / 8 < 8 ^ k := by
      rw [Nat.div_lt_iff_lt_mul (by omega)]
      calc n < 8 ^ (k + 1) := h
        _ = 8 ^ k * 8 := by rw [Nat.pow_succ]
    rw [encodeOctal, List.foldl_append, ih _ _ hdiv]
    have hm : n % 8 < 8 := Nat.mod_lt _ (by omega)
    simp only [List.foldl_cons, List.foldl_nil, Option.some_bind]
    rw [if_pos (by omega)]
    congr 1
    have hsub : 48 + n % 8 - 48 = n % 8 := by omega
    rw [hsub, Nat.pow_succ]
    have hnm : n / 8 * 8 + n % 8 = n := by omega
    calc (v * 8 ^ k + n / 8) * 8 + n % 8
        = v * (8 ^ k * 8) + (n / 8 * 8 + n % 8) := by ring
      _ = v * (8 ^ k * 8) + n := by rw [hnm]

theorem decodeOctal_encodeOctal (k n : Nat) (h : n < 8 ^ k) :
    decodeOctalDigits (encodeOctal k n) = some n := by
  have := decodeOctal_general k n 0 h
  simpa [decodeOctalDigits] using this

/-! ### Name round trip -/

theorem takeWhile_append_of_all {α : Type} (p : α → Bool) (xs ys : List α)
    (h : ∀ x ∈ xs, p x = true) :
    (xs ++ ys).takeWhile p = xs ++ ys.takeWhile p := by
  induction xs with
  | nil => simp
  | cons a as ih =>
    have ha := h a (by simp)
    simp only [List.cons_append, List.takeWhile_cons, ha, if_true]
    rw [ih fun x hx => h x (by simp [hx])]

theorem takeWhile_zeros (n : Nat) :
    (zeros n).takeWhile (fun b => b != 0) = [] := by
  cases n with
  | zero => rfl
  | succ m => simp [zeros, List.replicate, List.takeWhile]

theorem string_mk_data (s : String) : String.mk s.data = s := by
  cases s
  rfl

theorem validNameB_spec (s : String) (h : validNameB s = true) :
    s.length ≤ 100 ∧ ∀ c ∈ s.data, c.toNat ≠ 0 ∧ c.toNat < 256 := by
  simp only [validNameB, Bool.and_eq_true, decide_eq_true_eq, List.all_eq_true,
    bne_iff_ne, ne_eq] at h
  refine ⟨h.1, fun c hc => ?_⟩
  have := h.2 c hc
  simp only [Bool.and_eq_true, decide_eq_true_eq, bne_iff_ne, ne_eq] at this
  exact this

theorem decodeName_encodeName (s : String) (h : validNameB s = true) :
    decodeName (encodeName s) = s := by
  obtain ⟨-, hc⟩ := validNameB_spec s h
  unfold decodeName encodeName
  rw [takeWhile_append_of_all _ _ _ (by
    intro x hx
    obtain ⟨c, hcmem, rfl⟩ := List.mem_map.mp hx
    simpa using (hc c hcmem).1)]
  rw [takeWhile_zeros, List.append_nil, List.map_map]
  have : (Char.ofNat ∘ Char.toNat) = id := by
    funext c
    exact Char.ofNat_toNat c
  rw [this, List.map_id, string_mk_data]

/-! ### Header field extraction -/

theorem fieldAt_append (pre mid rest : List Nat) (s l : Nat)
    (hs : pre.length = s) (hl : mid.length = l) :
    fieldAt (pre ++ (mid ++ rest)) s l = mid := by
  unfold fieldAt
  rw [List.drop_left' hs, List.take_left' hl]

theorem length_headerPre (name : String) (size : Nat) (h : name.length ≤ 100) :
    (headerPre name size).length = 148 := by
  simp [headerPre, length_encodeName name h, length_zeros, length_encodeOctal]

theorem length_headerPost (flag : Nat) : (headerPost flag).length = 356 := by
  simp [headerPost, length_zeros]

theorem length_mkHeaderCk (name : String) (size flag ck : Nat) (h : name.length ≤ 100) :
    (mkHeaderWithCk name size flag ck).length = 512 := by
  simp [mkHeaderWithCk, length_headerPre name size h, length_headerPost,
    length_encodeOctal, List.length_append]

theorem take_100_mkHeaderCk (name : String) (size flag ck : Nat) (h : name.length ≤ 100) :
    (mkHeaderWithCk name size flag ck).take 100 = encodeName name := by
  have hform : mkHeaderWithCk name size flag ck = encodeName name ++
      (zeros 24 ++ encodeOctal 11 size ++ [0] ++ zeros 12 ++
        (encodeOctal 6 ck ++ [0, 32]) ++ headerPost flag) := by
    simp [mkHeaderWithCk, headerPre, List.append_assoc]
  rw [hform, List.take_left' (length_encodeName name h)]

theorem take_148_mkHeaderCk (name : String) (size flag ck : Nat) (h : name.length ≤ 100) :
    (mkHeaderWithCk name size flag ck).take 148 = headerPre name size := by
  rw [mkHeaderWithCk, List.append_assoc, List.take_left' (length_headerPre name size h)]

theorem drop_156_mkHeaderCk (name : String) (size flag ck : Nat) (h : name.length ≤ 100) :
    (mkHeaderWithCk name size flag ck).drop 156 = headerPost flag := by
  have hform : mkHeaderWithCk name size flag ck = (headerPre name size ++
      (encodeOctal 6 ck ++ [0, 32])) ++ headerPost flag := by
    simp [mkHeaderWithCk, List.append_assoc]
  rw [hform, List.drop_left' (by
    simp [List.length_append, length_headerPre name size h, length_encodeOctal])]

theorem fieldAt_chksum_mkHeaderCk (name : String) (size flag ck : Nat)
    (h : name.length ≤ 100) :
    fieldAt (mkHeaderWithCk name size flag ck) 148 6 = encodeOctal 6 ck := by
  have hform : mkHeaderWithCk name size flag ck = headerPre name size ++
      (encodeOctal 6 ck ++ ([0, 32] ++ headerPost flag)) := by
    simp [mkHeaderWithCk, List.append_assoc]
  rw [hform, fieldAt_append _ _ _ _ _ (length_headerPre name size h) (length_encodeOctal 6 _)]

theorem fieldAt_size_mkHeaderCk (name : String) (size flag ck : Nat)
    (h : name.length ≤ 100) :
    fieldAt (mkHeaderWithCk name size flag ck) 124 11 = encodeOctal 11 size := by
  have hform : mkHeaderWithCk name size flag ck = (encodeName name ++ zeros 24) ++
      (encodeOctal 11 size ++ ([0] ++ zeros 12 ++
        (encodeOctal 6 ck ++ [0, 32]) ++ headerPost flag)) := by
    simp [mkHeaderWithCk, headerPre, List.append_assoc]
  rw [hform, fieldAt_append _ _ _ _ _ (by
    simp [List.length_append, length_encodeName name h, length_zeros]) (length_encodeOctal 11 _)]

theorem length_mkHeader (name : String) (size flag : Nat) (h : name.length ≤ 100) :
    (mkHeader name size flag).length = 512 :=
  length_mkHeaderCk name size flag _ h

theorem take_100_mkHeader (name : String) (size flag : Nat) (h : name.length ≤ 100) :
    (mkHeader name size flag).take 100 = encodeName name :=
  take_100_mkHeaderCk name size flag _ h

theorem take_148_mkHeader (name : String) (size flag : Nat) (h : name.length ≤ 100) :
    (mkHeader name size flag).take 148 = headerPre name size :=
  take_148_mkHeaderCk name size flag _ h

theorem drop_156_mkHeader (name : String) (size flag : Nat) (h : name.length ≤ 100) :
    (mkHeader name size flag).drop 156 = headerPost flag :=
  drop_156_mkHeaderCk name size flag _ h

theorem fieldAt_chksum_mkHeader (name : String) (size flag : Nat) (h : name.length ≤ 100) :
    fieldAt (mkHeader name size flag) 148 6 =
      encodeOctal 6 (chksumOf (headerPre name size) (headerPost flag)) :=
  fieldAt_chksum_mkHeaderCk name size flag _ h

theorem fieldAt_size_mkHeader (name : String) (size flag : Nat) (h : name.length ≤ 100) :
    fieldAt (mkHeader name size flag) 124 11 = encodeOctal 11 size :=
  fieldAt_size_mkHeaderCk name size flag _ h

theorem mem_headerPre_le (name : String) (size x : Nat) (hn : validNameB name = true)
    (hx : x ∈ headerPre name size) : x ≤ 255 := by
  obtain ⟨-, hc⟩ := validNameB_spec name hn
  have hz : ∀ n y : Nat, y ∈ zeros n → y ≤ 255 := by
    intro n y hy
    rw [List.eq_of_mem_replicate hy]
    omega
  unfold headerPre at hx
  rcases List.mem_append.mp hx with hx | hx
  case inr => exact hz 12 x hx
  rcases List.mem_append.mp hx with hx | hx
  case inr =>
    rw [List.mem_singleton.mp hx]
    omega
  rcases List.mem_append.mp hx with hx | hx
  case inr =>
    have := mem_encodeOctal 11 size x hx
    omega
  rcases List.mem_append.mp hx with hx | hx
  case inr => exact hz 24 x hx
  unfold encodeName at hx
  rcases List.mem_append.mp hx with hx | hx
  case inr => exact hz _ x hx
  obtain ⟨c, hcmem, rfl⟩ := List.mem_map.mp hx
  have := (hc c hcmem).2
  omega

theorem mem_headerPost_le (flag x : Nat) (hf : flag ≤ 255)
    (hx : x ∈ headerPost flag) : x ≤ 255 := by
  simp only [headerPost, List.mem_cons] at hx
  rcases hx with rfl | hx
  · exact hf
  · simp only [zeros] at hx
    rw [List.eq_of_mem_replicate hx]
    omega

theorem chksumOf_lt (name : String) (size flag : Nat)
    (hn : validNameB name = true) (hf : flag ≤ 255) :
    chksumOf (headerPre name size) (headerPost flag) < 8 ^ 6 := by
  have hlen : (headerPre name size ++ spaces 8 ++ headerPost flag).length = 512 := by
    have h100 : name.length ≤ 100 := (validNameB_spec name hn).1
    simp [List.length_append, length_headerPre name size h100, length_spaces,
      length_headerPost]
  have hmem : ∀ x ∈ headerPre name size ++ spaces 8 ++ headerPost flag, x ≤ 255 := by
    intro x hx
    simp only [List.append_assoc, List.mem_append] at hx
    rcases hx with hx | hx | hx
    · exact mem_headerPre_le name size x hn hx
    · simp only [spaces] at hx
      rw [List.eq_of_mem_replicate hx]
      omega
    · exact mem_headerPost_le flag x hf hx
  have := sum_le_of_bytes _ hmem
  rw [hlen] at this
  unfold chksumOf
  omega

/-- Header round trip: parsing a serialized header recovers the name, size
and type flag. -/
theorem parseHeader_mkHeader (name : String) (size flag : Nat)
    (hn : validNameB name = true) (hs : size < 8 ^ 11) (hf : flag ≤ 255) :
    parseHeader (mkHeader name size flag) = Except.ok (name, size, flag) := by
  have h100 : name.length ≤ 100 := (validNameB_spec name hn).1
  unfold parseHeader
  rw [if_pos (length_mkHeader name size flag h100)]
  rw [fieldAt_chksum_mkHeader name size flag h100,
    decodeOctal_encodeOctal 6 _ (chksumOf_lt name size flag hn hf),
    fieldAt_size_mkHeader name size flag h100,
    decodeOctal_encodeOctal 11 size hs]
  simp only
  rw [take_148_mkHeader name size flag h100, drop_156_mkHeader name size flag h100]
  simp only [chksumOf]
  rw [if_pos trivial]
  rw [take_100_mkHeader name size flag h100, decodeName_encodeName name hn]
  simp [headerPost]

/-! ### Scanner lemmas -/

theorem size_le_blocks (n : Nat) : n ≤ 512 * contentBlocks n := by
  unfold contentBlocks
  omega

theorem blocks_lt (n : Nat) : 512 * contentBlocks n < n + 512 := by
  unfold contentBlocks
  omega

theorem isZeroBlock_zeros (n : Nat) : isZeroBlock (zeros n) = true := by
  simp only [isZeroBlock, zeros, List.all_eq_true, beq_iff_eq]
  intro x hx
  exact List.eq_of_mem_replicate hx

theorem mem_32_mkHeader (name : String) (size flag : Nat) :
    32 ∈ mkHeader name size flag := by
  unfold mkHeader
  apply List.mem_append.mpr
  left
  apply List.mem_append.mpr
  right
  apply List.mem_append.mpr
  right
  simp

theorem isZeroBlock_mkHeader (name : String) (size flag : Nat) :
    isZeroBlock (mkHeader name size flag) = false := by
  apply List.all_eq_false.mpr
  exact ⟨32, mem_32_mkHeader name size flag, by simp⟩

theorem validEntryB_spec (e : TarEntry) (h : validEntryB e = true) :
    validNameB e.name = true ∧ e.content.length < 8 ^ 11 ∧
      (e.typeflag = 48 ∨ (e.typeflag = 53 ∧ e.content = [])) := by
  simp only [validEntryB, Bool.and_eq_true, Bool.or_eq_true, beq_iff_eq,
    decide_eq_true_eq, List.isEmpty_iff] at h
  exact ⟨h.1.1, h.1.2, h.2⟩

theorem length_mkMember (e : TarEntry) (h : validEntryB e = true) :
    (mkMember e).length = memberLen e := by
  obtain ⟨hn, -, -⟩ := validEntryB_spec e h
  have h100 : e.name.length ≤ 100 := (validNameB_spec _ hn).1
  have hle := size_le_blocks e.content.length
  simp [mkMember, memberLen, List.length_append,
    length_mkHeader e.name e.content.length e.typeflag h100, length_zeros, padLen]
  omega

theorem headerScan_mkHeader (name : String) (size flag : Nat)
    (hn : validNameB name = true) (hs : size < 8 ^ 11) (hf : flag ≤ 255) :
    headerScan (mkHeader name size flag) =
      Except.ok (name, size, flag, contentBlocks size) := by
  simp [headerScan, parseHeader_mkHeader name size flag hn hs hf, Except.map]

theorem take_512_member (e : TarEntry) (rest : List Nat) (h : validEntryB e = true) :
    ((mkMember e ++ rest).take 512) = mkHeader e.name e.content.length e.typeflag := by
  obtain ⟨hn, -, -⟩ := validEntryB_spec e h
  have h100 : e.name.length ≤ 100 := (validNameB_spec _ hn).1
  have hform : mkMember e ++ rest = mkHeader e.name e.content.length e.typeflag ++
      (e.content ++ (zeros (padLen e.content.length) ++ rest)) := by
    simp [mkMember, List.append_assoc]
  rw [hform, List.take_left' (length_mkHeader _ _ _ h100)]

theorem drop_member (e : TarEntry) (rest : List Nat) (h : validEntryB e = true) :
    ((mkMember e ++ rest).drop (512 + 512 * contentBlocks e.content.length)) = rest := by
  rw [List.drop_left']
  rw [length_mkMember e h]
  rfl

/-- One unfolding step of the scanner at positive fuel. -/
theorem scanGo_succ (fuel : Nat) (bytes : List Nat) (pos : Nat) :
    scanGo (fuel + 1) bytes pos =
      if bytes.length < 512 then Except.ok []
      else if isZeroBlock (bytes.take 512) then Except.ok []
      else
        match headerScan (bytes.take 512) with
        | Except.error e => Except.error e
        | Except.ok (name, size, flag, nblocks) =>
          if bytes.length < 512 + 512 * nblocks then
            Except.error ScanError.malformedHeader
          else
            match scanGo fuel (bytes.drop (512 + 512 * nblocks))
                (pos + 512 + 512 * nblocks) with
            | Except.error e => Except.error e
            | Except.ok rest => Except.ok (mkScanRecord name size flag pos :: rest) := rfl

/-- Scanning a serialized run of members followed by any suffix produces the
expected records for those members and then continues scanning the suffix,
with the cursor advanced by the total serialized length. -/
theorem scanGo_body_cont (es : List TarEntry) :
    ∀ pos fuel rest, (∀ e ∈ es, validEntryB e = true) → es.length ≤ fuel →
      scanGo fuel (tarBody es ++ rest) pos =
        match scanGo (fuel - es.length) rest (pos + (tarBody es).length) with
        | Except.ok rs => Except.ok (expectedRecords pos es ++ rs)
        | Except.error err => Except.error err := by
  induction es with
  | nil =>
    intro pos fuel rest _ _
    have h0 : tarBody ([] : List TarEntry) ++ rest = rest := by simp [tarBody]
    have h1 : (tarBody ([] : List TarEntry)).length = 0 := by simp [tarBody]
    rw [h0, h1]
    simp only [Nat.sub_zero, Nat.add_zero, List.length_nil, expectedRecords]
    cases hX : scanGo fuel rest pos <;> simp [hX]
  | cons e tl ih =>
    intro pos fuel rest hv hf
    have hf1 : 1 ≤ fuel := by
      simp only [List.length_cons] at hf
      omega
    obtain ⟨f, rfl⟩ : ∃ f, fuel = f + 1 := ⟨fuel - 1, by omega⟩
    have hve : validEntryB e = true := hv e (by simp)
    obtain ⟨hn, hs, -⟩ := validEntryB_spec e hve
    have hform : tarBody (e :: tl) ++ rest =
        mkMember e ++ (tarBody tl ++ rest) := by
      simp [tarBody, List.append_assoc]
    have hlenM : (mkMember e).length = memberLen e := length_mkMember e hve
    have hlenB : (mkMember e ++ (tarBody tl ++ rest)).length =
        memberLen e + ((tarBody tl).length + rest.length) := by
      rw [List.length_append, List.length_append, hlenM]
    rw [hform, scanGo_succ]
    rw [if_neg (by rw [hlenB]; unfold memberLen; omega)]
    rw [take_512_member e _ hve, isZeroBlock_mkHeader,
      headerScan_mkHeader e.name e.content.length e.typeflag hn hs
        (by rcases (validEntryB_spec e hve).2.2 with h48 | ⟨h53, -⟩ <;> omega)]
    simp only [Bool.false_eq_true, if_false]
    rw [if_neg (by rw [hlenB]; unfold memberLen; omega)]
    rw [drop_member e _ hve]
    rw [ih (pos + 512 + 512 * contentBlocks e.content.length) f rest
      (fun x hx => hv x (by simp [hx]))
      (by simp only [List.length_cons] at hf; omega)]
    have harith1 : f + 1 - (e :: tl).length = f - tl.length := by
      simp only [List.length_cons]
      omega
    have harith2 : pos + (tarBody (e :: tl)).length =
        pos + 512 + 512 * contentBlocks e.content.length + (tarBody tl).length := by
      have : tarBody (e :: tl) = mkMember e ++ tarBody tl := rfl
      rw [this, List.length_append, hlenM]
      unfold memberLen
      omega
    have hpos : pos + 512 + 512 * contentBlocks e.content.length =
        pos + memberLen e := by
      unfold memberLen
      omega
    rw [harith1, ← harith2]
    cases hX : scanGo (f - tl.length) rest (pos + (tarBody (e :: tl)).length) <;>
      simp [hX, expectedRecords, hpos]

/-- Scanning the end-of-archive zero blocks yields no records. -/
theorem scanGo_zeros1024 (fuel pos : Nat) :
    scanGo fuel (zeros 1024) pos = Except.ok [] := by
  cases fuel with
  | zero => rfl
  | succ f =>
    unfold scanGo
    rw [if_neg (by simp [length_zeros])]
    have htake : (zeros 1024).take 512 = zeros 512 := by
      rw [zeros, zeros, List.take_replicate, Nat.min_eq_left (by norm_num)]
    rw [htake, isZeroBlock_zeros]
    rfl

/-- Scanning a serialized archive recovers exactly the expected member
records, one per entry, in serialization order. -/
theorem scanGo_tarBody (es : List TarEntry) (pos fuel : Nat)
    (hv : ∀ e ∈ es, validEntryB e = true) (hf : es.length ≤ fuel) :
    scanGo fuel (tarBody es ++ zeros 1024) pos = Except.ok (expectedRecords pos es) := by
  rw [scanGo_body_cont es pos fuel (zeros 1024) hv hf, scanGo_zeros1024]
  simp

theorem length_tarBody_ge (es : List TarEntry)
    (hv : ∀ e ∈ es, validEntryB e = true) :
    512 * es.length ≤ (tarBody es).length := by
  induction es with
  | nil => simp [tarBody]
  | cons e tl ih =>
    have : tarBody (e :: tl) = mkMember e ++ tarBody tl := rfl
    rw [this, List.length_append, length_mkMember e (hv e (by simp))]
    have := ih fun x hx => hv x (by simp [hx])
    unfold memberLen
    simp only [List.length_cons]
    omega

/-- The indexer on a well-formed serialized archive: every member appears as
one record, in serialization order, starting at position 0. -/
theorem scanArchive_buildTar (es : List TarEntry)
    (hv : ∀ e ∈ es, validEntryB e = true) :
    scanArchive (buildTar es) = Except.ok (expectedRecords 0 es) := by
  unfold scanArchive buildTar
  apply scanGo_tarBody es 0 _ hv
  have h1 := length_tarBody_ge es hv
  rw [List.length_append, length_zeros]
  omega

/-! ### Properties of the expected records -/

theorem expectedRecords_map_name (es : List TarEntry) :
    ∀ pos, (expectedRecords pos es).map (fun r => r.name) = es.map (fun e => e.name) := by
  induction es with
  | nil => intro pos; rfl
  | cons e tl ih =>
    intro pos
    simp only [expectedRecords, List.map_cons, ih, mkScanRecord]

theorem expectedRecords_length (es : List TarEntry) :
    ∀ pos, (expectedRecords pos es).length = es.length := by
  induction es with
  | nil => intro pos; rfl
  | cons e tl ih =>
    intro pos
    simp only [expectedRecords, List.length_cons, ih]

/-! ### The scanner's offset invariant -/

theorem headerScan_ok (b : List Nat) (n : String) (s f k : Nat)
    (h : headerScan b = Except.ok (n, s, f, k)) : k = contentBlocks s := by
  unfold headerScan at h
  cases hp : parseHeader b with
  | error e =>
    rw [hp] at h
    simp [Except.map] at h
  | ok v =>
    rw [hp] at h
    simp only [Except.map, Except.ok.injEq] at h
    cases h
    rfl

theorem scanGo_offset_bound :
    ∀ fuel (bytes : List Nat) (pos : Nat) (rs : List MemberRecord),
      scanGo fuel bytes pos = Except.ok rs →
      ∀ r ∈ rs, r.kind = MemberKind.regularFile →
        r.offset + r.size ≤ pos + bytes.length := by
  intro fuel
  induction fuel with
  | zero =>
    intro bytes pos rs h r hr _
    cases h
    simp at hr
  | succ f ih =>
    intro bytes pos rs h r hr hk
    rw [scanGo_succ] at h
    by_cases h1 : bytes.length < 512
    · rw [if_pos h1] at h
      cases h
      simp at hr
    rw [if_neg h1] at h
    by_cases h2 : isZeroBlock (bytes.take 512) = true
    · rw [if_pos h2] at h
      cases h
      simp at hr
    rw [if_neg h2] at h
    cases hhs : headerScan (bytes.take 512) with
    | error e =>
      rw [hhs] at h
      cases h
    | ok v =>
      obtain ⟨n, s, f', k⟩ := v
      rw [hhs] at h
      simp only at h
      by_cases h3 : bytes.length < 512 + 512 * k
      · rw [if_pos h3] at h
        cases h
      rw [if_neg h3] at h
      cases hrec : scanGo f (bytes.drop (512 + 512 * k)) (pos + 512 + 512 * k) with
      | error e =>
        rw [hrec] at h
        cases h
      | ok rest =>
        rw [hrec] at h
        cases h
        rcases List.mem_cons.mp hr with rfl | hmem
        · have hkk : k = contentBlocks s := headerScan_ok _ _ _ _ _ hhs
          have hsz := size_le_blocks s
          simp only [mkScanRecord] at hk ⊢
          rw [if_neg (by rw [hk]; intro hcontra; cases hcontra)]
          omega
        · have := ih _ _ _ hrec r hmem hk
          rw [List.length_drop] at this
          omega

theorem scanArchive_offset_bound (bytes : List Nat) (rs : List MemberRecord)
    (h : scanArchive bytes = Except.ok rs) :
    ∀ r ∈ rs, r.kind = MemberKind.regularFile → r.offset + r.size ≤ bytes.length := by
  intro r hr hk
  have := scanGo_offset_bound _ _ _ _ h r hr hk
  simpa using this

/-! ### Bounded reads -/

theorem readBytes_spec (bytes : List Nat) (r : MemberRecord)
    (hb : r.offset + r.size ≤ bytes.length) :
    (readBytes bytes r).length = r.size ∧
      ∀ i, i < r.size → (readBytes bytes r)[i]? = bytes[r.offset + i]? := by
  constructor
  · simp only [readBytes, List.length_take, List.length_drop]
    omega
  · intro i hi
    simp only [readBytes]
    rw [List.getElem?_take, if_pos hi, List.getElem?_drop]

/-! ### Name lookup: last write wins -/

theorem foldl_lookup_skip (ys : List MemberRecord) (n : String)
    (acc : Option MemberRecord) (h : ∀ y ∈ ys, y.name ≠ n) :
    ys.foldl (fun acc r => if r.name = n then some r else acc) acc = acc := by
  induction ys generalizing acc with
  | nil => rfl
  | cons y ys ih =>
    simp only [List.foldl_cons]
    rw [if_neg (h y (by simp))]
    exact ih acc fun x hx => h x (by simp [hx])

theorem lookupName_last (xs ys : List MemberRecord) (r : MemberRecord) (n : String)
    (hr : r.name = n) (hys : ∀ y ∈ ys, y.name ≠ n) :
    lookupName (xs ++ r :: ys) n = some r := by
  unfold lookupName
  rw [List.foldl_append]
  simp only [List.foldl_cons, if_pos hr]
  exact foldl_lookup_skip ys n (some r) hys

/-! ### Per-process handle state machine -/

theorem runOps_opened (ops : List DatasetOp) (h : Nat) (k : Nat) :
    runOps { handle := some h, opensSoFar := k } ops =
      { handle := some h, opensSoFar := k } := by
  induction ops with
  | nil => rfl
  | cons op ops ih =>
    have hstep : stepOp { handle := some h, opensSoFar := k } op =
        { handle := some h, opensSoFar := k } := by
      cases op <;> rfl
    simp only [runOps, List.foldl_cons]
    rw [show List.foldl stepOp (stepOp { handle := some h, opensSoFar := k } op) ops =
        runOps (stepOp { handle := some h, opensSoFar := k } op) ops from rfl, hstep]
    exact ih

theorem runOps_char (ops : List DatasetOp) :
    runOps initState ops =
      if ops.any DatasetOp.isRead then { handle := some 0, opensSoFar := 1 }
      else initState := by
  induction ops with
  | nil => rfl
  | cons op ops ih =>
    cases op with
    | readMember s =>
      have hstep : stepOp initState (DatasetOp.readMember s) =
          { handle := some 0, opensSoFar := 1 } := rfl
      simp only [runOps, List.foldl_cons, hstep]
      rw [show List.foldl stepOp { handle := some 0, opensSoFar := 1 } ops =
          runOps { handle := some 0, opensSoFar := 1 } ops from rfl]
      rw [runOps_opened]
      simp [DatasetOp.isRead]
    | buildIndex =>
      simp only [runOps, List.foldl_cons]
      rw [show stepOp initState DatasetOp.buildIndex = initState from rfl]
      rw [show List.foldl stepOp initState ops = runOps initState ops from rfl, ih]
      simp [DatasetOp.isRead]
    | listMembers =>
      simp only [runOps, List.foldl_cons]
      rw [show stepOp initState DatasetOp.listMembers = initState from rfl]
      rw [show List.foldl stepOp initState ops = runOps initState ops from rfl, ih]
      simp [DatasetOp.isRead]

/-! ### A header with an invalid checksum is rejected -/

theorem mem_32_mkHeaderCk (name : String) (size flag ck : Nat) :
    32 ∈ mkHeaderWithCk name size flag ck := by
  unfold mkHeaderWithCk
  apply List.mem_append.mpr
  left
  apply List.mem_append.mpr
  right
  apply List.mem_append.mpr
  right
  simp

theorem isZeroBlock_mkHeaderCk (name : String) (size flag ck : Nat) :
    isZeroBlock (mkHeaderWithCk name size flag ck) = false := by
  apply List.all_eq_false.mpr
  refine ⟨32, mem_32_mkHeaderCk name size flag ck, by simp⟩

theorem parseHeader_wrong_ck (name : String) (size flag ck : Nat)
    (hn : validNameB name = true) (hs : size < 8 ^ 11) (hck : ck < 8 ^ 6)
    (hne : ck ≠ chksumOf (headerPre name size) (headerPost flag)) :
    parseHeader (mkHeaderWithCk name size flag ck) =
      Except.error ScanError.malformedHeader := by
  have h100 : name.length ≤ 100 := (validNameB_spec name hn).1
  unfold parseHeader
  rw [if_pos (length_mkHeaderCk name size flag ck h100)]
  rw [fieldAt_chksum_mkHeaderCk name size flag ck h100,
    decodeOctal_encodeOctal 6 ck hck,
    fieldAt_size_mkHeaderCk name size flag ck h100,
    decodeOctal_encodeOctal 11 size hs]
  simp only
  rw [take_148_mkHeaderCk name size flag ck h100, drop_156_mkHeaderCk name size flag ck h100]
  rw [if_neg (by
    intro hcontra
    apply hne
    rw [chksumOf]
    exact hcontra)]

theorem chksumOf_cons_name (name : String) (c : Char) (cs : List Char)
    (hd : name.data = c :: cs) (size : Nat) (post : List Nat) :
    chksumOf (headerPre name size) post =
      c.toNat + (cs.map Char.toNat ++ zeros (100 - name.length) ++ zeros 24 ++
        encodeOctal 11 size ++ [0] ++ zeros 12 ++ spaces 8 ++ post).sum := by
  unfold chksumOf headerPre encodeName
  rw [hd]
  simp [List.map_cons, List.cons_append, List.sum_cons, List.append_assoc]

theorem chksum_f5_ne_g5 :
    chksumOf (headerPre "f5.png" 0) (headerPost 48) ≠
      chksumOf (headerPre "g5.png" 0) (headerPost 48) := by
  have hdf : "f5.png".data = 'f' :: "5.png".data := rfl
  have hdg : "g5.png".data = 'g' :: "5.png".data := rfl
  rw [chksumOf_cons_name "f5.png" 'f' "5.png".data hdf 0 (headerPost 48),
    chksumOf_cons_name "g5.png" 'g' "5.png".data hdg 0 (headerPost 48)]
  have hlf : "f5.png".length = 6 := rfl
  have hlg : "g5.png".length = 6 := rfl
  rw [hlf, hlg]
  have hcf : ('f').toNat = 102 := rfl
  have hcg : ('g').toNat = 103 := rfl
  rw [hcf, hcg]
  omega

theorem headerScan_wrong_ck (name : String) (size flag ck : Nat)
    (hn : validNameB name = true) (hs : size < 8 ^ 11) (hck : ck < 8 ^ 6)
    (hne : ck ≠ chksumOf (headerPre name size) (headerPost flag)) :
    headerScan (mkHeaderWithCk name size flag ck) =
      Except.error ScanError.malformedHeader := by
  unfold headerScan
  rw [parseHeader_wrong_ck name size flag ck hn hs hck hne]
  rfl

/-- The scanner aborts as soon as it meets a header block whose stored
checksum does not match its contents, whatever bytes follow it. -/
theorem scanGo_badHeader (name : String) (size flag ck : Nat)
    (suffix : List Nat) (f pos : Nat)
    (hn : validNameB name = true) (hs : size < 8 ^ 11) (hck : ck < 8 ^ 6)
    (hne : ck ≠ chksumOf (headerPre name size) (headerPost flag)) :
    scanGo (f + 1) (mkHeaderWithCk name size flag ck ++ suffix) pos =
      Except.error ScanError.malformedHeader := by
  have h100 : name.length ≤ 100 := (validNameB_spec name hn).1
  have hlen := length_mkHeaderCk name size flag ck h100
  rw [scanGo_succ]
  rw [if_neg (by
    rw [List.length_append, hlen]
    omega)]
  rw [List.take_left' hlen]
  rw [show isZeroBlock (mkHeaderWithCk name size flag ck) = false from
    isZeroBlock_mkHeaderCk name size flag ck]
  rw [headerScan_wrong_ck name size flag ck hn hs hck hne]
  simp

/-- Whenever the indexer, after scanning any run of valid members, encounters
a header block with an invalid checksum, the whole index build fails with
`MalformedHeader` — no matter what bytes follow the bad header. -/
theorem scanArchive_badHeader (es : List TarEntry) (name : String)
    (size flag ck : Nat) (suffix : List Nat)
    (hv : ∀ e ∈ es, validEntryB e = true)
    (hn : validNameB name = true) (hs : size < 8 ^ 11) (hck : ck < 8 ^ 6)
    (hne : ck ≠ chksumOf (headerPre name size) (headerPost flag)) :
    scanArchive (tarBody es ++ (mkHeaderWithCk name size flag ck ++ suffix)) =
      Except.error ScanError.malformedHeader := by
  have h100 : name.length ≤ 100 := (validNameB_spec name hn).1
  have htb := length_tarBody_ge es hv
  have hlen : (tarBody es ++ (mkHeaderWithCk name size flag ck ++ suffix)).length =
      (tarBody es).length + (512 + suffix.length) := by
    rw [List.length_append, List.length_append, length_mkHeaderCk name size flag ck h100]
  unfold scanArchive
  rw [scanGo_body_cont es 0 _ _ hv (by rw [hlen]; omega)]
  obtain ⟨f, hf⟩ : ∃ f,
      (tarBody es ++ (mkHeaderWithCk name size flag ck ++ suffix)).length / 512 + 1 -
        es.length = f + 1 :=
    ⟨(tarBody es ++ (mkHeaderWithCk name size flag ck ++ suffix)).length / 512 -
      es.length, by rw [hlen]; omega⟩
  rw [hf, scanGo_badHeader name size flag ck suffix f _ hn hs hck hne]

/-! ### The default image-extension filter -/

theorem extensionFilter_default (r : MemberRecord) :
    extensionFilter defaultExtensions r = decide (isDefaultImage r) := by
  unfold extensionFilter extMatch defaultExtensions isDefaultImage
  simp only [List.any_cons, List.any_nil, Bool.or_false, Bool.decide_and,
    Bool.decide_or, Bool.decide_coe]

/-! ### Lexicographic order on class names -/

theorem charListLe_total : ∀ as bs : List Char,
    charListLe as bs = true ∨ charListLe bs as = true
  | [], bs => Or.inl rfl
  | a :: as, [] => Or.inr rfl
  | a :: as, b :: bs => by
    unfold charListLe
    by_cases h1 : a.toNat < b.toNat
    · left
      rw [if_pos h1]
    by_cases h2 : a.toNat = b.toNat
    · rcases charListLe_total as bs with h | h
      · left
        rw [if_neg h1, if_pos h2]
        exact h
      · right
        rw [if_neg (by omega), if_pos (by omega)]
        exact h
    · right
      rw [if_pos (by omega)]

theorem charListLe_trans : ∀ as bs cs : List Char,
    charListLe as bs = true → charListLe bs cs = true → charListLe as cs = true
  | [], _, _ => fun _ _ => rfl
  | a :: as, [], _ => fun h1 _ => by simp [charListLe] at h1
  | a :: as, b :: bs, [] => fun _ h2 => by simp [charListLe] at h2
  | a :: as, b :: bs, c :: cs => fun h1 h2 => by
    unfold charListLe at h1 h2 ⊢
    by_cases hab : a.toNat < b.toNat <;> by_cases hbc : b.toNat < c.toNat
    · rw [if_pos (by omega)]
    · by_cases heq : b.toNat = c.toNat
      · rw [if_pos (by omega)]
      · rw [if_neg hbc, if_neg heq] at h2
        cases h2
    · by_cases heq : a.toNat = b.toNat
      · rw [if_pos (by omega)]
      · rw [if_neg hab, if_neg heq] at h1
        cases h1
    · by_cases heq1 : a.toNat = b.toNat
      · by_cases heq2 : b.toNat = c.toNat
        · rw [if_neg hab, if_pos heq1] at h1
          rw [if_neg hbc, if_pos heq2] at h2
          rw [if_neg (by omega), if_pos (by omega)]
          exact charListLe_trans as bs cs h1 h2
        · rw [if_neg hbc, if_neg heq2] at h2
          cases h2
      · rw [if_neg hab, if_neg heq1] at h1
        cases h1

theorem charListLe_antisymm : ∀ as bs : List Char,
    charListLe as bs = true → charListLe bs as = true → as = bs
  | [], [] => fun _ _ => rfl
  | [], b :: bs => fun _ h2 => by simp [charListLe] at h2
  | a :: as, [] => fun h1 _ => by simp [charListLe] at h1
  | a :: as, b :: bs => fun h1 h2 => by
    unfold charListLe at h1 h2
    by_cases hab : a.toNat < b.toNat
    · rw [if_neg (by omega), if_neg (by omega)] at h2
      cases h2
    · by_cases heq : a.toNat = b.toNat
      · have hc : a = b := by
          rw [← Char.ofNat_toNat a, ← Char.ofNat_toNat b, heq]
        rw [if_neg hab, if_pos heq] at h1
        rw [if_neg (by omega), if_pos (by omega)] at h2
        rw [hc, charListLe_antisymm as bs h1 h2]
      · rw [if_neg hab, if_neg heq] at h1
        cases h1

theorem strLe_total (a b : String) : strLe a b = true ∨ strLe b a = true :=
  charListLe_total a.data b.data

theorem strLe_trans (a b c : String) (h1 : strLe a b = true) (h2 : strLe b c = true) :
    strLe a c = true :=
  charListLe_trans a.data b.data c.data h1 h2

theorem strLe_antisymm (a b : String) (h1 : strLe a b = true) (h2 : strLe b a = true) :
    a = b := by
  cases a with
  | mk da =>
    cases b with
    | mk db =>
      exact congrArg String.mk (charListLe_antisymm da db h1 h2)

/-! ### Class list properties -/

theorem classesOf_sorted (samples : List String) :
    (classesOf samples).Sorted (fun a b => strLe a b = true) := by
  haveI : IsTotal String (fun a b => strLe a b = true) := ⟨strLe_total⟩
  haveI : IsTrans String (fun a b => strLe a b = true) := ⟨strLe_trans⟩
  exact List.sorted_insertionSort _ _

theorem classesOf_perm (s₁ s₂ : List String) (h : s₁.Perm s₂) :
    classesOf s₁ = classesOf s₂ := by
  haveI : IsAntisymm String (fun a b => strLe a b = true) := ⟨strLe_antisymm⟩
  refine List.eq_of_perm_of_sorted ?_ (classesOf_sorted s₁) (classesOf_sorted s₂)
  unfold classesOf
  exact (List.perm_insertionSort _ _).trans
    (((h.filterMap topFolder).dedup).trans (List.perm_insertionSort _ _).symm)

theorem classesOf_nodup (samples : List String) : (classesOf samples).Nodup := by
  unfold classesOf
  exact (List.perm_insertionSort _ _).nodup_iff.mpr (List.nodup_dedup _)

theorem classesOf_mem (samples : List String) (c : String) :
    c ∈ classesOf samples ↔ c ∈ samples.filterMap topFolder := by
  unfold classesOf
  rw [(List.perm_insertionSort _ _).mem_iff, List.mem_dedup]

theorem idxToClass_classToIdx (samples : List String) (c : String)
    (h : c ∈ classesOf samples) :
    idxToClass samples (classToIdx samples c) = some c := by
  unfold idxToClass classToIdx
  rw [List.getElem?_eq_getElem (List.indexOf_lt_length.mpr h)]
  exact congrArg some (List.getElem_indexOf (List.indexOf_lt_length.mpr h))

theorem classToIdx_idxToClass (samples : List String) (i : Nat) (c : String)
    (h : idxToClass samples i = some c) : classToIdx samples c = i := by
  unfold idxToClass at h
  unfold classToIdx
  have hlt : i < (classesOf samples).length := by
    by_contra hge
    rw [List.getElem?_eq_none (by omega)] at h
    cases h
  rw [List.getElem?_eq_getElem hlt] at h
  have hc : (classesOf samples)[i] = c := Option.some.inj h
  rw [← hc]
  exact List.indexOf_getElem (classesOf_nodup samples) i hlt

/-! ### Opening a serialized archive -/

theorem openIndex_buildTar (es : List TarEntry)
    (hv : ∀ e ∈ es, validEntryB e = true) :
    openIndex (buildTar es) noFilter = Except.ok (expectedRecords 0 es) := by
  rw [openIndex, scanArchive_buildTar es hv]
  simp [Except.map, noFilter, List.filter_true]

/-! ### Claim theorems -/

/-- C1: for every RegularFile record in a built index, `read` succeeds and
returns exactly `record.size` bytes, and every returned byte is the archive
byte at a position strictly below `offset + size` — no tar padding and no
bytes of the next member can appear, even when the archive extends past that
boundary. -/
theorem c1_read_exact (bytes : List Nat) (P : String → MemberKind → Bool)
    (rs : List MemberRecord) (r : MemberRecord)
    (hopen : openIndex bytes P = Except.ok rs) (hr : r ∈ rs)
    (hk : r.kind = MemberKind.regularFile) :
    readRecord bytes r = Except.ok (readBytes bytes r) ∧
    (readBytes bytes r).length = r.size ∧
    ∀ i, i < r.size →
      (readBytes bytes r)[i]? = bytes[r.offset + i]? ∧
      r.offset + i < r.offset + r.size := by
  cases hscan : scanArchive bytes with
  | error e =>
    rw [openIndex, hscan] at hopen
    simp [Except.map] at hopen
  | ok all =>
    rw [openIndex, hscan] at hopen
    simp only [Except.map, Except.ok.injEq] at hopen
    have hmem : r ∈ all := by
      apply List.mem_of_mem_filter (p := fun r => P r.name r.kind)
      rw [hopen]
      exact hr
    have hb := scanArchive_offset_bound bytes all hscan r hmem hk
    obtain ⟨hlen, hget⟩ := readBytes_spec bytes r hb
    refine ⟨?_, hlen, fun i hi => ⟨hget i hi, by omega⟩⟩
    unfold readRecord
    rw [hk]

/-- C1 witness: on a one-member archive, the indexed `a.png` record reads
back exactly its two content bytes. -/
theorem c1_read_exact_witness :
    openIndex demoArchive noFilter = Except.ok [demoRecord] ∧
    readRecord demoArchive demoRecord = Except.ok (readBytes demoArchive demoRecord) ∧
    (readBytes demoArchive demoRecord).length = 2 := by
  have hopen : openIndex demoArchive noFilter = Except.ok [demoRecord] := by
    have h := openIndex_buildTar [demoEntry] (by decide)
    rw [show expectedRecords 0 [demoEntry] = [demoRecord] from by decide] at h
    exact h
  have h := c1_read_exact demoArchive noFilter [demoRecord] demoRecord hopen
    (by decide) (by decide)
  exact ⟨hopen, h.1, h.2.1⟩

/-- C2: indexing a well-formed archive with no filter lists each member
exactly once, in the order the headers occur, and the index length equals
the archive's member count. -/
theorem c2_list_complete (es : List TarEntry)
    (hv : ∀ e ∈ es, validEntryB e = true) :
    openIndex (buildTar es) noFilter = Except.ok (expectedRecords 0 es) ∧
    (expectedRecords 0 es).map (fun r => r.name) = es.map (fun e => e.name) ∧
    (expectedRecords 0 es).length = es.length :=
  ⟨openIndex_buildTar es hv, expectedRecords_map_name es 0, expectedRecords_length es 0⟩

/-- C2 witness: the four-member demonstration archive lists its four members
in header order. -/
theorem c2_list_complete_witness :
    openIndex (buildTar demoEntries) noFilter = Except.ok (expectedRecords 0 demoEntries) ∧
    (expectedRecords 0 demoEntries).map (fun r => r.name) =
      ["red/", "red/a.png", "notes.txt", "green/b.JPG"] ∧
    (expectedRecords 0 demoEntries).length = 4 := by
  have h := c2_list_complete demoEntries (by decide)
  exact ⟨h.1, by decide, by decide⟩

/-- C3: opening with a predicate over (name, kind) yields exactly the
subsequence of the unfiltered member list that satisfies the predicate,
with relative order preserved. -/
theorem c3_filter_subsequence (bytes : List Nat) (P : String → MemberKind → Bool)
    (all : List MemberRecord)
    (h : openIndex bytes noFilter = Except.ok all) :
    openIndex bytes P = Except.ok (all.filter fun r => P r.name r.kind) ∧
    (all.filter fun r => P r.name r.kind).Sublist all := by
  cases hscan : scanArchive bytes with
  | error e =>
    rw [openIndex, hscan] at h
    simp [Except.map] at h
  | ok rs =>
    rw [openIndex, hscan] at h
    simp only [Except.map, Except.ok.injEq] at h
    have hall : rs = all := by
      rw [← h]
      simp [noFilter, List.filter_true]
    subst hall
    exact ⟨by rw [openIndex, hscan]; rfl, List.filter_sublist _⟩

/-- C3 witness: filtering the demonstration archive to names ending in
`.png` keeps exactly the single matching member, in order. -/
theorem c3_filter_subsequence_witness :
    openIndex (buildTar demoEntries) (fun n _ => strSuffix (lowerStr n) ".png") =
      Except.ok ((expectedRecords 0 demoEntries).filter fun r =>
        strSuffix (lowerStr r.name) ".png") ∧
    ((expectedRecords 0 demoEntries).filter fun r =>
      strSuffix (lowerStr r.name) ".png").map (fun r => r.name) = ["red/a.png"] := by
  have h := c3_filter_subsequence (buildTar demoEntries)
    (fun n _ => strSuffix (lowerStr n) ".png") (expectedRecords 0 demoEntries)
    (openIndex_buildTar demoEntries (by decide))
  exact ⟨h.1, by decide⟩

/-- C4: if any header block encountered during indexing has an invalid
checksum — after any run of valid members, with any bytes following the bad
header — then `open` fails with `MalformedHeader` for every predicate, and
atomically: the failing result carries no record list at all, so no partial
or corrupt index is ever observable. -/
theorem c4_malformed_atomic (es : List TarEntry) (name : String)
    (size flag ck : Nat) (suffix : List Nat) (P : String → MemberKind → Bool)
    (hv : ∀ e ∈ es, validEntryB e = true)
    (hn : validNameB name = true) (hs : size < 8 ^ 11) (hck : ck < 8 ^ 6)
    (hne : ck ≠ chksumOf (headerPre name size) (headerPost flag)) :
    scanArchive (tarBody es ++ (mkHeaderWithCk name size flag ck ++ suffix)) =
      Except.error ScanError.malformedHeader ∧
    openIndex (tarBody es ++ (mkHeaderWithCk name size flag ck ++ suffix)) P =
      Except.error ScanError.malformedHeader := by
  have h := scanArchive_badHeader es name size flag ck suffix hv hn hs hck hne
  refine ⟨h, ?_⟩
  rw [openIndex, h]
  rfl

/-- C4 witness: the five-member archive whose fifth header block stores the
checksum of the original `f5.png` header over `g5.png` bytes (a one-byte
name flip without a checksum update) is rejected atomically. -/
theorem c4_malformed_atomic_witness :
    scanArchive corruptedArchive = Except.error ScanError.malformedHeader ∧
    openIndex corruptedArchive noFilter = Except.error ScanError.malformedHeader :=
  c4_malformed_atomic firstFour "g5.png" 0 48
    (chksumOf (headerPre "f5.png" 0) (headerPost 48)) (zeros 1024) noFilter
    (by decide) (by decide) (by norm_num)
    (chksumOf_lt "f5.png" 0 48 (by decide) (by norm_num))
    chksum_f5_ne_g5

/-- C5: when an archive contains two or more members with the same name, the
index's name-keyed lookup returns the later (last-seen in header order)
member's record, superseding all earlier ones. -/
theorem c5_last_wins (bytes : List Nat) (rs xs ys : List MemberRecord)
    (r x : MemberRecord) (n : String)
    (hscan : scanArchive bytes = Except.ok rs)
    (hsplit : rs = xs ++ r :: ys)
    (hx : x ∈ xs) (hxn : x.name = n)
    (hr : r.name = n) (hys : ∀ y ∈ ys, y.name ≠ n) :
    lookupName rs n = some r := by
  rw [hsplit]
  exact lookupName_last xs ys r n hr hys

/-- C5 witness: in an archive with two `a.png` members, lookup returns the
later one's offset (2560) and size (2). -/
theorem c5_last_wins_witness :
    scanArchive (buildTar dupEntries) = Except.ok (expectedRecords 0 dupEntries) ∧
    lookupName (expectedRecords 0 dupEntries) "a.png" =
      some ⟨"a.png", MemberKind.regularFile, 2560, 2⟩ := by
  have hscan := scanArchive_buildTar dupEntries (by decide)
  refine ⟨hscan, ?_⟩
  exact c5_last_wins (buildTar dupEntries) (expectedRecords 0 dupEntries)
    [⟨"a.png", MemberKind.regularFile, 512, 1⟩, ⟨"b.png", MemberKind.regularFile, 1536, 1⟩]
    [] ⟨"a.png", MemberKind.regularFile, 2560, 2⟩
    ⟨"a.png", MemberKind.regularFile, 512, 1⟩ "a.png" hscan (by decide) (by decide)
    (by decide) (by decide) (by simp)

/-- C6: a successful header scan reports `ceil(size / 512)` content blocks —
the least number of 512-byte blocks covering the content — and the indexer
advances its cursor by the 512-byte header plus that padded content length
before reading the next header. -/
theorem c6_cursor_advance (bytes : List Nat) (pos fuel : Nat) (n : String)
    (s f k : Nat)
    (hh : headerScan (bytes.take 512) = Except.ok (n, s, f, k))
    (h1 : ¬ bytes.length < 512)
    (h2 : isZeroBlock (bytes.take 512) = false)
    (h3 : ¬ bytes.length < 512 + 512 * k) :
    k = contentBlocks s ∧ s ≤ 512 * k ∧ 512 * k < s + 512 ∧
    scanGo (fuel + 1) bytes pos =
      match scanGo fuel (bytes.drop (512 + 512 * k)) (pos + 512 + 512 * k) with
      | Except.error err => Except.error err
      | Except.ok rest => Except.ok (mkScanRecord n s f pos :: rest) := by
  have hk := headerScan_ok _ _ _ _ _ hh
  refine ⟨hk, by rw [hk]; exact size_le_blocks s, by rw [hk]; exact blocks_lt s, ?_⟩
  rw [scanGo_succ, if_neg h1, h2]
  simp only [Bool.false_eq_true, if_false]
  rw [hh]
  simp only
  rw [if_neg h3]

/-- C6 witness: for a member of content size 2 the scanner reports one
content block, the least 512-byte cover of 2 bytes. -/
theorem c6_cursor_advance_witness :
    headerScan ((mkMember demoEntry ++ zeros 1024).take 512) =
      Except.ok ("a.png", 2, 48, 1) ∧
    1 = contentBlocks 2 ∧ 2 ≤ 512 * 1 ∧ 512 * 1 < 2 + 512 := by
  have htake : (mkMember demoEntry ++ zeros 1024).take 512 =
      mkHeader "a.png" 2 48 := take_512_member demoEntry (zeros 1024) (by decide)
  have hh : headerScan ((mkMember demoEntry ++ zeros 1024).take 512) =
      Except.ok ("a.png", 2, 48, 1) := by
    rw [htake, headerScan_mkHeader "a.png" 2 48 (by decide) (by norm_num) (by norm_num)]
    rfl
  have hlen : (mkMember demoEntry ++ zeros 1024).length = 2048 := by
    rw [List.length_append, length_mkMember demoEntry (by decide), length_zeros]
    decide
  have h := c6_cursor_advance (mkMember demoEntry ++ zeros 1024) 0 1 "a.png" 2 48 1
    hh (by rw [hlen]; omega)
    (by rw [htake]; exact isZeroBlock_mkHeader "a.png" 2 48)
    (by rw [hlen]; omega)
  exact ⟨hh, h.1, h.2.1, h.2.2.1⟩

/-- C7: with the archive bytes unchanged, reading the same record through any
two handle states yields byte-identical content (each read seeks first), and
two index builds of the same bytes produce identical ordered record lists. -/
theorem c7_idempotent (bytes : List Nat) (r : MemberRecord)
    (h1 h2 : FileCursor) (rs rs' : List MemberRecord) :
    (readAt bytes h1 r).1 = (readAt bytes h2 r).1 ∧
    (scanArchive bytes = Except.ok rs → scanArchive bytes = Except.ok rs' →
      rs = rs') := by
  refine ⟨rfl, fun ha hb => ?_⟩
  exact Except.ok.inj (ha.symm.trans hb)

/-- C7 witness: two reads of the demonstration record from cursors at
positions 0 and 777 return the same bytes, and a rebuild of the index equals
the first build. -/
theorem c7_idempotent_witness :
    (readAt demoArchive ⟨0⟩ demoRecord).1 = (readAt demoArchive ⟨777⟩ demoRecord).1 ∧
    expectedRecords 0 [demoEntry] = expectedRecords 0 [demoEntry] := by
  have hscan : scanArchive demoArchive = Except.ok (expectedRecords 0 [demoEntry]) :=
    scanArchive_buildTar [demoEntry] (by decide)
  have h := c7_idempotent demoArchive demoRecord ⟨0⟩ ⟨777⟩
    (expectedRecords 0 [demoEntry]) (expectedRecords 0 [demoEntry])
  exact ⟨h.1, h.2 hscan hscan⟩

/-- C8: a process that performs no read holds no handle (index construction
opens nothing); once a read occurs, a single handle is opened lazily and that
same handle (id 0) is reused for the rest of the process — the open count
never exceeds one. -/
theorem c8_lazy_handle (ops : List DatasetOp) :
    ((∀ op ∈ ops, op.isRead = false) →
      (runOps initState ops).handle = none ∧ (runOps initState ops).opensSoFar = 0) ∧
    (runOps initState ops).opensSoFar ≤ 1 ∧
    ((∃ op ∈ ops, op.isRead = true) →
      (runOps initState ops).handle = some 0 ∧
        (runOps initState ops).opensSoFar = 1) := by
  rw [runOps_char]
  by_cases hany : ops.any DatasetOp.isRead
  · rw [if_pos hany]
    refine ⟨fun hnone => ?_, by norm_num, fun _ => ⟨rfl, rfl⟩⟩
    rw [List.any_eq_true] at hany
    obtain ⟨op, hop, hread⟩ := hany
    rw [hnone op hop] at hread
    cases hread
  · rw [if_neg hany]
    refine ⟨fun _ => ⟨rfl, rfl⟩, by norm_num [initState], fun hex => ?_⟩
    obtain ⟨op, hop, hread⟩ := hex
    exact absurd (List.any_eq_true.mpr ⟨op, hop, hread⟩) hany

/-- C8 witness: a trace with reads ends holding the lazily opened handle 0
with exactly one open; an index-build-only trace holds no handle. -/
theorem c8_lazy_handle_witness :
    ((runOps initState [DatasetOp.buildIndex, DatasetOp.readMember "a.png",
      DatasetOp.listMembers, DatasetOp.readMember "b.png"]).handle = some 0 ∧
     (runOps initState [DatasetOp.buildIndex, DatasetOp.readMember "a.png",
      DatasetOp.listMembers, DatasetOp.readMember "b.png"]).opensSoFar = 1) ∧
    ((runOps initState [DatasetOp.buildIndex, DatasetOp.listMembers]).handle = none ∧
     (runOps initState [DatasetOp.buildIndex, DatasetOp.listMembers]).opensSoFar = 0) := by
  constructor
  · exact (c8_lazy_handle [DatasetOp.buildIndex, DatasetOp.readMember "a.png",
      DatasetOp.listMembers, DatasetOp.readMember "b.png"]).2.2
      ⟨DatasetOp.readMember "a.png", by decide, rfl⟩
  · exact (c8_lazy_handle [DatasetOp.buildIndex, DatasetOp.listMembers]).1
      (by decide)

/-- C9: constructed with no extensions argument and no `is_valid_file`
predicate, `TarDataset` keeps exactly the regular-file members whose names,
lowercased, end in `.png`, `.jpg` or `.jpeg`, and excludes every other
member. -/
theorem c9_default_filter (bytes : List Nat) (rs : List MemberRecord)
    (hscan : scanArchive bytes = Except.ok rs) :
    tarDatasetSamples bytes none none =
      Except.ok ((rs.filter fun r => decide (isDefaultImage r)).map fun r => r.name) := by
  unfold tarDatasetSamples
  rw [hscan]
  show Except.ok ((rs.filter (extensionFilter defaultExtensions)).map fun r => r.name) = _
  rw [show extensionFilter defaultExtensions = fun r => decide (isDefaultImage r) from
    funext extensionFilter_default]

/-- C9 witness: on the demonstration archive the default filter keeps
`red/a.png` and `green/b.JPG` (case-insensitive), and drops the directory
and the text file. -/
theorem c9_default_filter_witness :
    tarDatasetSamples (buildTar demoEntries) none none =
      Except.ok ["red/a.png", "green/b.JPG"] := by
  have h := c9_default_filter (buildTar demoEntries) (expectedRecords 0 demoEntries)
    (scanArchive_buildTar demoEntries (by decide))
  exact h.trans (congrArg Except.ok (by decide))

/-- C10: `TarImageFolder` class labels: the class list is the distinct
top-level folder names of the samples in sorted (alphabetical) order,
independent of the order the folders appear in the archive, and
`idx_to_class` / `class_to_idx` are mutually inverse consecutive labels over
that sorted list. -/
theorem c10_sorted_classes (s₁ s₂ : List String) (hperm : s₁.Perm s₂) :
    classesOf s₁ = classesOf s₂ ∧
    (classesOf s₁).Sorted (fun a b => strLe a b = true) ∧
    (classesOf s₁).Nodup ∧
    (∀ c, c ∈ classesOf s₁ ↔ c ∈ s₁.filterMap topFolder) ∧
    (∀ c ∈ classesOf s₁, idxToClass s₁ (classToIdx s₁ c) = some c) ∧
    (∀ i c, idxToClass s₁ i = some c → classToIdx s₁ c = i) :=
  ⟨classesOf_perm s₁ s₂ hperm, classesOf_sorted s₁, classesOf_nodup s₁,
    fun c => classesOf_mem s₁ c, fun c hc => idxToClass_classToIdx s₁ c hc,
    fun i c h => classToIdx_idxToClass s₁ i c h⟩

/-- C10 witness: for folders `red/`, `green/`, `blue/` the labels are
blue = 0, green = 1, red = 2, whatever order the samples are listed in. -/
theorem c10_sorted_classes_witness :
    classesOf ["red/a.png", "green/b.png", "blue/c.png"] =
      classesOf ["blue/c.png", "red/a.png", "green/b.png"] ∧
    classesOf ["red/a.png", "green/b.png", "blue/c.png"] = ["blue", "green", "red"] ∧
    idxToClass ["red/a.png", "green/b.png", "blue/c.png"] 0 = some "blue" ∧
    idxToClass ["red/a.png", "green/b.png", "blue/c.png"] 1 = some "green" ∧
    idxToClass ["red/a.png", "green/b.png", "blue/c.png"] 2 = some "red" ∧
    classToIdx ["red/a.png", "green/b.png", "blue/c.png"] "red" = 2 := by
  have h := c10_sorted_classes ["red/a.png", "green/b.png", "blue/c.png"]
    ["blue/c.png", "red/a.png", "green/b.png"] (by decide)
  exact ⟨h.1, by decide, by decide, by decide, by decide, by decide⟩
